import Mathlib

/-!
Verification of the incremental diagnostic synchronization engine
(src/server/utils/errorsCache.ts): the per-file diagnostic store, the
identity-key based delta computation performed by sendErrors, the delta
application used for peer-to-peer cache replication, the truncated
snapshot builder, and the batch update entry point.

JavaScript objects are modelled as association lists in key insertion
order with unique keys (key uniqueness is an invariant of JS objects and
appears as a Nodup hypothesis where a proof needs it). An absent key and
a key mapped to an empty array are distinct states, exactly as in the
source, where an empty array is truthy.
-/

/-- Editor position, a line and a column, as used by CodeError. -/
structure EditorPosition where
  line : Nat
  ch : Nat
deriving DecidableEq, Repr

/-- Modelled from the spec: the CodeError record itself is declared outside
the given sources (only used there). Fields follow section 3 of the spec:
filePath, a from and a to position, a message, and producer-defined payload
fields not interpreted by the core, modelled by the single field payload.
The source fields named from and to are rendered fromPos and toPos. -/
structure CodeError where
  filePath : String
  fromPos : EditorPosition
  toPos : EditorPosition
  message : String
  payload : String
deriving DecidableEq, Repr

/-- Source line 6: the key identifying a unique error is the string
interpolation of from.line, from.ch and message, colon separated. -/
def errorKey (e : CodeError) : String :=
  toString e.fromPos.line ++ ":" ++ toString e.fromPos.ch ++ ":" ++ e.message

/-- A JS object mapping file paths to error arrays, in key insertion order. -/
abbrev ErrorsByFilePath := List (String × List CodeError)

/-- The delta record emitted by sendErrors and consumed by applyDelta. -/
structure ErrorCacheDelta where
  added : ErrorsByFilePath
  removed : ErrorsByFilePath
deriving DecidableEq, Repr

/-- The limited snapshot record returned by getErrorsLimited. -/
structure LimitedErrorsUpdate where
  errorsByFilePath : ErrorsByFilePath
  totalCount : Nat
  syncCount : Nat
  tooMany : Bool
deriving DecidableEq, Repr

/-- JS object indexing: the value at a key, or none when the key is absent. -/
def lookupFP {α : Type} : List (String × α) → String → Option α
  | [], _ => none
  | (k, v) :: rest, fp => if k = fp then some v else lookupFP rest fp

/-- JS object assignment: replace the value in place when the key exists,
otherwise append the new key at the end (JS insertion order). -/
def setEntry {α : Type} : List (String × α) → String → α → List (String × α)
  | [], fp, v => [(fp, v)]
  | (k, w) :: rest, fp, v =>
      if k = fp then (k, v) :: rest else (k, w) :: setEntry rest fp v

/-- The error list currently stored for a file path; an absent path reads
as the empty list, as in getErrorsForFilePath. -/
def errorsAt (s : ErrorsByFilePath) (fp : String) : List CodeError :=
  (lookupFP s fp).getD []

/-- Identity keys of the diagnostics stored at a file path. -/
def keysAt (s : ErrorsByFilePath) (fp : String) : List String :=
  (errorsAt s fp).map errorKey

/-- Key uniqueness invariant of a JS object rendered as an association list. -/
def keysNodup {α : Type} (s : List (String × α)) : Prop :=
  (s.map Prod.fst).Nodup

instance keysNodupDecidable {α : Type} (s : List (String × α)) : Decidable (keysNodup s) :=
  inferInstanceAs (Decidable ((s.map Prod.fst).Nodup))

/-- Errors of the new list whose identity key is missing from the old
list, in new-list order, matching the pushes at source lines 79 to 85. -/
def addedGroup (oldErrors newErrors : List CodeError) : List CodeError :=
  newErrors.filter (fun ne => decide (errorKey ne ∉ List.map errorKey oldErrors))

/-- Delta contribution of one entry of the new snapshot: the wholesale
branch when the path is absent from the old snapshot, otherwise the keyed
diff, dropped entirely when no error was pushed. -/
def addedEntry (oldS : ErrorsByFilePath) (pl : String × List CodeError) :
    Option (String × List CodeError) :=
  match lookupFP oldS pl.1 with
  | none => some pl
  | some oldErrors =>
      if addedGroup oldErrors pl.2 = [] then none
      else some (pl.1, addedGroup oldErrors pl.2)

/-- Source lines 68 to 87, the added half of the delta built by sendErrors:
iterate the file paths of the new snapshot; a path absent from the old
snapshot contributes its whole list wholesale (even when empty); otherwise
only the new errors whose key is missing from the old list are pushed, and
the path key is created only on the first push. The removed half at source
lines 90 to 109 is the same loop with the two snapshots exchanged, so it is
rendered as computeAdded with swapped arguments. -/
def computeAdded (oldS newS : ErrorsByFilePath) : ErrorsByFilePath :=
  newS.filterMap (addedEntry oldS)

/-- The delta between the last sent snapshot and the current snapshot, as
computed inside sendErrors (source lines 59 to 109). -/
def diffDelta (oldS newS : ErrorsByFilePath) : ErrorCacheDelta :=
  { added := computeAdded oldS newS, removed := computeAdded newS oldS }

/-- Source lines 30 to 31, the body of the added loop of applyDelta: a path
absent from the target is created with the added list, otherwise the added
list is concatenated onto the existing one. -/
def applyAddedStep (s : ErrorsByFilePath) (pl : String × List CodeError) : ErrorsByFilePath :=
  match lookupFP s pl.1 with
  | none => setEntry s pl.1 pl.2
  | some cur => setEntry s pl.1 (cur ++ pl.2)

/-- Source lines 29 to 32, the added phase of applyDelta. -/
def applyAdded (s : ErrorsByFilePath) (added : ErrorsByFilePath) : ErrorsByFilePath :=
  added.foldl applyAddedStep s

/-- Source lines 35 to 36, the body of the removed loop of applyDelta: the
list at the path (empty when absent, which creates the entry) is filtered,
dropping the errors whose identity key occurs among the removed errors for
that path. -/
def applyRemovedStep (s : ErrorsByFilePath) (pl : String × List CodeError) : ErrorsByFilePath :=
  setEntry s pl.1
    ((errorsAt s pl.1).filter
      (fun e => decide (errorKey e ∉ List.map errorKey pl.2)))

/-- Source lines 34 to 37, the removed phase of applyDelta. -/
def applyRemoved (s : ErrorsByFilePath) (removed : ErrorsByFilePath) : ErrorsByFilePath :=
  removed.foldl applyRemovedStep s

/-- Source lines 27 to 39: applyDelta merges a received delta into the
store, additions first, removals second. It is a total function: no input
makes it fail. -/
def applyDelta (s : ErrorsByFilePath) (delta : ErrorCacheDelta) : ErrorsByFilePath :=
  applyRemoved (applyAdded s delta.added) delta.removed

/-- Helper for grouping: append the key if it was not seen yet, keeping
first-occurrence order, as JS object key creation does. -/
def addKey (ks : List String) (k : String) : List String :=
  if k ∈ ks then ks else ks ++ [k]

/-- The distinct file paths of a batch in first-occurrence order. -/
def firstKeys (errors : List CodeError) : List String :=
  errors.foldl (fun ks e => addKey ks e.filePath) []

/-- The createMapByKey call of setErrorsByFilePaths (source line 124):
group the batch by filePath, keys in first-occurrence order, each group
keeping the original order of its errors. Every group is nonempty. -/
def groupByFilePath (errors : List CodeError) : ErrorsByFilePath :=
  (firstKeys errors).map (fun fp => (fp, errors.filter (fun e => decide (e.filePath = fp))))

/-- Source lines 125 to 130, first loop of setErrorsByFilePaths: a grouped
list replaces the stored list unless deep-equal to it (structural equality;
comparison against an absent entry is never equal since groups are
nonempty), setting the somethingNew flag on every actual replacement. -/
def phase1Step (acc : ErrorsByFilePath × Bool) (pl : String × List CodeError) :
    ErrorsByFilePath × Bool :=
  if lookupFP acc.1 pl.1 = some pl.2 then acc else (setEntry acc.1 pl.1 pl.2, true)

/-- Source lines 133 to 138, second loop of setErrorsByFilePaths: a listed
file path with no group in the batch is cleared to the empty list, but only
when it currently stores a nonempty list (an absent entry is falsy and an
empty array has falsy length, so neither passes the guard). -/
def phase2Step (groups : ErrorsByFilePath) (acc : ErrorsByFilePath × Bool) (fp : String) :
    ErrorsByFilePath × Bool :=
  if lookupFP groups fp = none ∧ errorsAt acc.1 fp ≠ [] then (setEntry acc.1 fp [], true)
  else acc

/-- Source lines 120 to 143: setErrorsByFilePaths. Returns the mutated
store together with the somethingNew flag; sendErrors runs, and hence a
snapshot and a delta are emitted, exactly when the flag is true. -/
def setErrorsByFilePaths (s : ErrorsByFilePath) (filePaths : List String)
    (errors : List CodeError) : ErrorsByFilePath × Bool :=
  let errorsByFile := groupByFilePath errors
  let r1 := errorsByFile.foldl phase1Step (s, false)
  filePaths.foldl (phase2Step errorsByFile) r1

/-- Source line 154: a file contributes at most its first 50 errors. -/
def capErrors (l : List CodeError) : List CodeError :=
  if l.length > 50 then l.take 50 else l

/-- Capped total size of a store fragment, the running total of the
getErrorsLimited loop. -/
def cappedSum (l : ErrorsByFilePath) : Nat :=
  (l.map (fun pl => (capErrors pl.2).length)).sum

/-- Source lines 152 to 158, the loop of getErrorsLimited: walk the store
in insertion order, cap each file at 50, accumulate the running total, and
stop after the file that pushes the total over 200. Returns the limited
copy and the final running total. -/
def limitLoop : ErrorsByFilePath → Nat → ErrorsByFilePath × Nat
  | [], total => ([], total)
  | (fp, errs) :: rest, total =>
      let errs2 := capErrors errs
      let total2 := total + errs2.length
      if total2 > 200 then ([(fp, errs2)], total2)
      else
        let r := limitLoop rest total2
        ((fp, errs2) :: r.1, r.2)

/-- Source lines 149 to 163: getErrorsLimited builds the limited snapshot;
totalCount is the untruncated sum over the full store, syncCount the final
running total of the loop, tooMany their disagreement. -/
def getErrorsLimited (s : ErrorsByFilePath) : LimitedErrorsUpdate :=
  let r := limitLoop s 0
  let totalCount := (s.map (fun pl => pl.2.length)).sum
  { errorsByFilePath := r.1
    totalCount := totalCount
    syncCount := r.2
    tooMany := decide (r.2 ≠ totalCount) }

/-- Set of pairs of file path and identity key present in a store, the
notion of identity-key equivalence used by the spec. -/
def keyPairs (s : ErrorsByFilePath) : List (String × String) :=
  s.flatMap (fun pl => pl.2.map (fun e => (pl.1, errorKey e)))

/-!
Basic lemmas about the association list model of JS objects.
-/

theorem lookupFP_setEntry_self {α : Type} (s : List (String × α)) (fp : String) (v : α) :
    lookupFP (setEntry s fp v) fp = some v := by
  induction s with
  | nil => simp [setEntry, lookupFP]
  | cons hd tl ih =>
      obtain ⟨k, w⟩ := hd
      by_cases hk : k = fp
      · simp [setEntry, lookupFP, hk]
      · simp [setEntry, lookupFP, hk, ih]

theorem lookupFP_setEntry_ne {α : Type} (s : List (String × α)) (fp q : String) (v : α)
    (h : q ≠ fp) : lookupFP (setEntry s fp v) q = lookupFP s q := by
  have hfq : fp ≠ q := Ne.symm h
  induction s with
  | nil => simp [setEntry, lookupFP, hfq]
  | cons hd tl ih =>
      obtain ⟨k, w⟩ := hd
      by_cases hk : k = fp
      · subst hk
        simp [setEntry, lookupFP, hfq]
      · simp [setEntry, lookupFP, hk, ih]

theorem lookupFP_eq_none_iff {α : Type} (s : List (String × α)) (k : String) :
    lookupFP s k = none ↔ k ∉ s.map Prod.fst := by
  induction s with
  | nil => simp [lookupFP]
  | cons hd tl ih =>
      obtain ⟨q, w⟩ := hd
      by_cases hq : q = k
      · simp [lookupFP, hq]
      · simp [lookupFP, hq, ih, Ne.symm hq]

theorem mem_of_lookupFP_eq_some {α : Type} {s : List (String × α)} {k : String} {v : α}
    (h : lookupFP s k = some v) : (k, v) ∈ s := by
  induction s with
  | nil => simp [lookupFP] at h
  | cons hd tl ih =>
      obtain ⟨q, w⟩ := hd
      by_cases hq : q = k
      · subst hq
        simp [lookupFP] at h
        subst h
        exact List.mem_cons_self _ _
      · simp [lookupFP, hq] at h
        exact List.mem_cons_of_mem _ (ih h)

theorem lookupFP_eq_some_of_mem {α : Type} {s : List (String × α)} {k : String} {v : α}
    (hnd : keysNodup s) (h : (k, v) ∈ s) : lookupFP s k = some v := by
  induction s with
  | nil => simp at h
  | cons hd tl ih =>
      obtain ⟨q, w⟩ := hd
      simp only [keysNodup, List.map_cons, List.nodup_cons] at hnd
      rcases List.mem_cons.mp h with h1 | h2
      · injection h1 with hq hv
        subst hq
        subst hv
        simp [lookupFP]
      · have hqk : q ≠ k := by
          intro he
          subst he
          exact hnd.1 (List.mem_map.mpr ⟨(q, v), h2, rfl⟩)
        simp only [lookupFP, if_neg hqk]
        exact ih hnd.2 h2

theorem keys_setEntry {α : Type} (s : List (String × α)) (fp : String) (v : α) :
    (setEntry s fp v).map Prod.fst =
      if fp ∈ s.map Prod.fst then s.map Prod.fst else s.map Prod.fst ++ [fp] := by
  induction s with
  | nil => simp [setEntry]
  | cons hd tl ih =>
      obtain ⟨k, w⟩ := hd
      by_cases hk : k = fp
      · simp [setEntry, hk]
      · simp only [setEntry, if_neg hk, List.map_cons, ih, List.mem_cons, Ne.symm hk,
          false_or]
        by_cases hm : fp ∈ tl.map Prod.fst <;> simp [hm]

theorem keysNodup_setEntry {α : Type} (s : List (String × α)) (fp : String) (v : α)
    (h : keysNodup s) : keysNodup (setEntry s fp v) := by
  unfold keysNodup
  rw [keys_setEntry]
  by_cases hm : fp ∈ s.map Prod.fst
  · simpa [hm] using h
  · simp only [hm, if_false]
    exact List.Nodup.append h (List.nodup_singleton fp) (by simpa using hm)

theorem errorsAt_setEntry_self (s : ErrorsByFilePath) (fp : String) (v : List CodeError) :
    errorsAt (setEntry s fp v) fp = v := by
  simp [errorsAt, lookupFP_setEntry_self]

theorem errorsAt_setEntry_ne (s : ErrorsByFilePath) (fp q : String) (v : List CodeError)
    (h : q ≠ fp) : errorsAt (setEntry s fp v) q = errorsAt s q := by
  simp [errorsAt, lookupFP_setEntry_ne _ _ _ _ h]

/-!
Lemmas describing the delta computation of sendErrors.
-/

theorem addedEntry_fst {oldS : ErrorsByFilePath} {pl b : String × List CodeError}
    (h : addedEntry oldS pl = some b) : b.1 = pl.1 := by
  unfold addedEntry at h
  split at h
  · injection h with h
    exact congrArg Prod.fst h.symm
  · split at h
    · exact absurd h (by simp)
    · injection h with h
      rw [← h]

theorem keys_computeAdded_sublist (oldS newS : ErrorsByFilePath) :
    List.Sublist ((computeAdded oldS newS).map Prod.fst) (newS.map Prod.fst) := by
  induction newS with
  | nil => simp [computeAdded]
  | cons hd tl ih =>
      simp only [computeAdded, List.filterMap_cons] at *
      cases hae : addedEntry oldS hd with
      | none =>
          simp only [hae]
          exact ih.trans (List.sublist_cons_self hd.1 (tl.map Prod.fst))
      | some b =>
          simp only [hae, List.map_cons, addedEntry_fst hae]
          exact List.Sublist.cons₂ hd.1 ih

theorem keysNodup_computeAdded {oldS newS : ErrorsByFilePath} (hB : keysNodup newS) :
    keysNodup (computeAdded oldS newS) :=
  List.Nodup.sublist (keys_computeAdded_sublist oldS newS) hB

theorem lookupFP_computeAdded {oldS newS : ErrorsByFilePath} (hB : keysNodup newS)
    (fp : String) :
    lookupFP (computeAdded oldS newS) fp =
      (lookupFP newS fp).bind (fun nl => Option.map Prod.snd (addedEntry oldS (fp, nl))) := by
  induction newS with
  | nil => rfl
  | cons hd tl ih =>
      obtain ⟨q, l⟩ := hd
      simp only [keysNodup, List.map_cons, List.nodup_cons] at hB
      cases hae : addedEntry oldS (q, l) with
      | none =>
          have hstep : computeAdded oldS ((q, l) :: tl) = computeAdded oldS tl := by
            simp [computeAdded, List.filterMap_cons, hae]
          rw [hstep]
          by_cases hq : q = fp
          · subst hq
            have h1 : lookupFP (computeAdded oldS tl) q = none := by
              rw [lookupFP_eq_none_iff]
              intro hmem
              exact hB.1 ((keys_computeAdded_sublist oldS tl).subset hmem)
            have h2 : lookupFP ((q, l) :: tl) q = some l := by simp [lookupFP]
            rw [h1, h2]
            simp [hae]
          · have h2 : lookupFP ((q, l) :: tl) fp = lookupFP tl fp := by
              simp [lookupFP, hq]
            rw [h2, ih hB.2]
      | some b =>
          obtain ⟨bk, bl⟩ := b
          have hb1 : bk = q := addedEntry_fst hae
          subst hb1
          have hstep : computeAdded oldS ((bk, l) :: tl) = (bk, bl) :: computeAdded oldS tl := by
            simp [computeAdded, List.filterMap_cons, hae]
          rw [hstep]
          by_cases hq : bk = fp
          · subst hq
            have h2 : lookupFP ((bk, l) :: tl) bk = some l := by simp [lookupFP]
            have h3 : lookupFP ((bk, bl) :: computeAdded oldS tl) bk = some bl := by
              simp [lookupFP]
            rw [h2, h3]
            simp [hae]
          · have h2 : lookupFP ((bk, l) :: tl) fp = lookupFP tl fp := by
              simp [lookupFP, hq]
            have h3 : lookupFP ((bk, bl) :: computeAdded oldS tl) fp =
                lookupFP (computeAdded oldS tl) fp := by
              simp [lookupFP, hq]
            rw [h2, h3, ih hB.2]

theorem mem_map_key_filter (l : List CodeError) (ks : List String) (k : String) :
    (k ∈ (l.filter (fun e => decide (errorKey e ∉ ks))).map errorKey) ↔
      k ∈ l.map errorKey ∧ k ∉ ks := by
  simp only [List.mem_map, List.mem_filter, decide_eq_true_eq]
  constructor
  · rintro ⟨e, ⟨he, hk⟩, rfl⟩
    exact ⟨⟨e, he, rfl⟩, hk⟩
  · rintro ⟨⟨e, he, rfl⟩, hk⟩
    exact ⟨e, ⟨he, hk⟩, rfl⟩

theorem mem_map_key_addedGroup (ol nl : List CodeError) (k : String) :
    k ∈ (addedGroup ol nl).map errorKey ↔
      k ∈ nl.map errorKey ∧ k ∉ ol.map errorKey :=
  mem_map_key_filter nl (ol.map errorKey) k

/-- Identity keys present in the added (or, with arguments swapped, the
removed) half of a delta at a given path: exactly the keys present in the
new snapshot at that path and absent from the old one. -/
theorem mem_addedKeysAt {oldS newS : ErrorsByFilePath} (hB : keysNodup newS)
    (fp k : String) :
    k ∈ ((lookupFP (computeAdded oldS newS) fp).getD []).map errorKey ↔
      k ∈ keysAt newS fp ∧ k ∉ keysAt oldS fp := by
  rw [lookupFP_computeAdded hB]
  cases hn : lookupFP newS fp with
  | none => simp [keysAt, errorsAt, hn]
  | some nl =>
      simp only [Option.bind_eq_bind, Option.some_bind]
      unfold addedEntry
      simp only [keysAt, errorsAt, hn, Option.getD_some]
      cases ho : lookupFP oldS fp with
      | none => simp [ho]
      | some ol =>
          simp only [ho, Option.getD_some]
          rw [← mem_map_key_addedGroup ol nl k]
          by_cases ha : addedGroup ol nl = []
          · simp [ha]
          · simp [ha]

/-!
Lemmas describing applyDelta.
-/

theorem errorsAt_applyAddedStep_self (s : ErrorsByFilePath) (fp : String)
    (errs : List CodeError) :
    errorsAt (applyAddedStep s (fp, errs)) fp = errorsAt s fp ++ errs := by
  unfold applyAddedStep
  cases hl : lookupFP s fp with
  | none => simp [errorsAt, hl, lookupFP_setEntry_self]
  | some cur => simp [errorsAt, hl, lookupFP_setEntry_self]

theorem errorsAt_applyAddedStep_ne (s : ErrorsByFilePath) (fp q : String)
    (errs : List CodeError) (h : q ≠ fp) :
    errorsAt (applyAddedStep s (fp, errs)) q = errorsAt s q := by
  unfold applyAddedStep
  cases hl : lookupFP s fp with
  | none => exact errorsAt_setEntry_ne _ _ _ _ h
  | some cur => exact errorsAt_setEntry_ne _ _ _ _ h

theorem errorsAt_applyAdded {added : ErrorsByFilePath} (h : keysNodup added)
    (s : ErrorsByFilePath) (q : String) :
    errorsAt (applyAdded s added) q = errorsAt s q ++ (lookupFP added q).getD [] := by
  induction added generalizing s with
  | nil => simp [applyAdded, lookupFP]
  | cons hd tl ih =>
      obtain ⟨fp, errs⟩ := hd
      simp only [keysNodup, List.map_cons, List.nodup_cons] at h
      have hstep : applyAdded s ((fp, errs) :: tl) = applyAdded (applyAddedStep s (fp, errs)) tl :=
        rfl
      rw [hstep, ih h.2]
      by_cases hq : q = fp
      · subst hq
        have h0 : lookupFP tl q = none := (lookupFP_eq_none_iff tl q).mpr h.1
        have h1 : lookupFP ((q, errs) :: tl) q = some errs := by simp [lookupFP]
        rw [h0, h1]
        simp [errorsAt_applyAddedStep_self]
      · have h1 : lookupFP ((fp, errs) :: tl) q = lookupFP tl q := by
          simp [lookupFP, Ne.symm hq]
        rw [h1, errorsAt_applyAddedStep_ne _ _ _ _ hq]

theorem errorsAt_applyRemovedStep_self (s : ErrorsByFilePath) (fp : String)
    (errs : List CodeError) :
    errorsAt (applyRemovedStep s (fp, errs)) fp =
      (errorsAt s fp).filter (fun e => decide (errorKey e ∉ List.map errorKey errs)) :=
  errorsAt_setEntry_self _ _ _

theorem errorsAt_applyRemovedStep_ne (s : ErrorsByFilePath) (fp q : String)
    (errs : List CodeError) (h : q ≠ fp) :
    errorsAt (applyRemovedStep s (fp, errs)) q = errorsAt s q :=
  errorsAt_setEntry_ne _ _ _ _ h

theorem errorsAt_applyRemoved {removed : ErrorsByFilePath} (h : keysNodup removed)
    (s : ErrorsByFilePath) (q : String) :
    errorsAt (applyRemoved s removed) q =
      match lookupFP removed q with
      | none => errorsAt s q
      | some r =>
          (errorsAt s q).filter (fun e => decide (errorKey e ∉ List.map errorKey r)) := by
  induction removed generalizing s with
  | nil => simp [applyRemoved, lookupFP]
  | cons hd tl ih =>
      obtain ⟨fp, errs⟩ := hd
      simp only [keysNodup, List.map_cons, List.nodup_cons] at h
      have hstep :
          applyRemoved s ((fp, errs) :: tl) = applyRemoved (applyRemovedStep s (fp, errs)) tl :=
        rfl
      rw [hstep, ih h.2]
      by_cases hq : q = fp
      · subst hq
        have h0 : lookupFP tl q = none := (lookupFP_eq_none_iff tl q).mpr h.1
        have h1 : lookupFP ((q, errs) :: tl) q = some errs := by simp [lookupFP]
        rw [h0, h1]
        simp [errorsAt_applyRemovedStep_self]
      · have h1 : lookupFP ((fp, errs) :: tl) q = lookupFP tl q := by
          simp [lookupFP, Ne.symm hq]
        rw [h1, errorsAt_applyRemovedStep_ne _ _ _ _ hq]

theorem keysNodup_applyAddedStep (s : ErrorsByFilePath) (pl : String × List CodeError)
    (h : keysNodup s) : keysNodup (applyAddedStep s pl) := by
  unfold applyAddedStep
  cases lookupFP s pl.1 with
  | none => exact keysNodup_setEntry _ _ _ h
  | some cur => exact keysNodup_setEntry _ _ _ h

theorem keysNodup_applyAdded (added s : ErrorsByFilePath) (h : keysNodup s) :
    keysNodup (applyAdded s added) := by
  induction added generalizing s with
  | nil => exact h
  | cons hd tl ih => exact ih _ (keysNodup_applyAddedStep s hd h)

theorem keysNodup_applyRemoved (removed s : ErrorsByFilePath) (h : keysNodup s) :
    keysNodup (applyRemoved s removed) := by
  induction removed generalizing s with
  | nil => exact h
  | cons hd tl ih => exact ih _ (keysNodup_setEntry _ _ _ h)

/-- Identity keys at a path after applying a well-keyed delta: the keys of
the target plus the added keys for the path, minus the removed keys. -/
theorem mem_keysAt_applyDelta {added removed : ErrorsByFilePath}
    (ha : keysNodup added) (hr : keysNodup removed) (s : ErrorsByFilePath)
    (fp k : String) :
    k ∈ keysAt (applyRemoved (applyAdded s added) removed) fp ↔
      (k ∈ keysAt s fp ∨ k ∈ ((lookupFP added fp).getD []).map errorKey) ∧
        k ∉ ((lookupFP removed fp).getD []).map errorKey := by
  unfold keysAt
  rw [errorsAt_applyRemoved hr]
  cases hl : lookupFP removed fp with
  | none =>
      simp only [Option.getD_none, List.map_nil, List.not_mem_nil, not_false_iff, and_true]
      rw [errorsAt_applyAdded ha, List.map_append, List.mem_append]
  | some r =>
      rw [mem_map_key_filter, errorsAt_applyAdded ha, List.map_append, List.mem_append]
      simp

/-- Core of the round trip property: at every path, the identity keys of
apply(A, diff(A, B)) are exactly the identity keys of B. -/
theorem mem_keysAt_applyDelta_diffDelta {A B : ErrorsByFilePath}
    (hA : keysNodup A) (hB : keysNodup B) (fp k : String) :
    k ∈ keysAt (applyDelta A (diffDelta A B)) fp ↔ k ∈ keysAt B fp := by
  unfold applyDelta diffDelta
  rw [mem_keysAt_applyDelta (keysNodup_computeAdded hB) (keysNodup_computeAdded hA)]
  rw [mem_addedKeysAt hB, mem_addedKeysAt hA]
  by_cases h1 : k ∈ keysAt A fp <;> by_cases h2 : k ∈ keysAt B fp <;> simp [h1, h2]

/-- Membership in the pair set of a store reduces to a per-path key lookup
when the store satisfies the JS object key uniqueness invariant. -/
theorem mem_keyPairs {s : ErrorsByFilePath} (h : keysNodup s) (fp k : String) :
    (fp, k) ∈ keyPairs s ↔ k ∈ keysAt s fp := by
  unfold keyPairs keysAt errorsAt
  constructor
  · intro hm
    rcases List.mem_flatMap.mp hm with ⟨pl, hpl, hk⟩
    rcases List.mem_map.mp hk with ⟨e, he, heq⟩
    have h1 : pl.1 = fp := congrArg Prod.fst heq
    have h2 : errorKey e = k := congrArg Prod.snd heq
    have h3 : lookupFP s fp = some pl.2 := by
      rw [← h1]
      exact lookupFP_eq_some_of_mem h (by rw [← Prod.mk.eta (p := pl)] at hpl; exact hpl)
    rw [h3]
    exact List.mem_map.mpr ⟨e, he, h2⟩
  · intro hm
    cases hl : lookupFP s fp with
    | none => rw [hl] at hm; simp at hm
    | some l =>
        rw [hl] at hm
        rcases List.mem_map.mp hm with ⟨e, he, heq⟩
        exact List.mem_flatMap.mpr
          ⟨(fp, l), mem_of_lookupFP_eq_some hl, List.mem_map.mpr ⟨e, he, by rw [heq]⟩⟩

/-!
Lemmas describing the truncated snapshot of getErrorsLimited.
-/

theorem capErrors_length_le_50 (l : List CodeError) : (capErrors l).length ≤ 50 := by
  unfold capErrors
  by_cases h : l.length > 50
  · simp [h]
  · simp [h]
    omega

theorem capErrors_length_le_self (l : List CodeError) : (capErrors l).length ≤ l.length := by
  unfold capErrors
  by_cases h : l.length > 50
  · simp [h]
  · simp [h]

theorem cappedSum_cons (pl : String × List CodeError) (l : ErrorsByFilePath) :
    cappedSum (pl :: l) = (capErrors pl.2).length + cappedSum l := by
  simp [cappedSum]

/-- Full description of the getErrorsLimited loop, generalized over the
incoming running total: the limited copy is the capped image of a prefix
of the store, the final total is the capped size of that prefix, every
proper prefix of the included prefix kept the running total at or below
200, and the loop stopped early only because the total went over 200. -/
theorem limitLoop_spec (l : ErrorsByFilePath) (t : Nat) (ht : t ≤ 200) :
    (limitLoop l t).1 =
        (l.take (limitLoop l t).1.length).map (fun pl => (pl.1, capErrors pl.2))
      ∧ (limitLoop l t).2 = t + cappedSum (l.take (limitLoop l t).1.length)
      ∧ (∀ i, i < (limitLoop l t).1.length → t + cappedSum (l.take i) ≤ 200)
      ∧ ((limitLoop l t).1.length < l.length →
          t + cappedSum (l.take (limitLoop l t).1.length) > 200)
      ∧ (limitLoop l t).1.length ≤ l.length := by
  induction l generalizing t with
  | nil => simp [limitLoop, cappedSum]
  | cons hd tl ih =>
      obtain ⟨fp, errs⟩ := hd
      by_cases hbr : t + (capErrors errs).length > 200
      · have hL : limitLoop ((fp, errs) :: tl) t =
            ([(fp, capErrors errs)], t + (capErrors errs).length) := by
          simp [limitLoop, hbr]
        rw [hL]
        refine ⟨?_, ?_, ?_, ?_, ?_⟩
        · simp
        · simp [cappedSum]
        · intro i hi
          have hi0 : i = 0 := Nat.lt_one_iff.mp hi
          subst hi0
          simpa [cappedSum] using ht
        · intro _
          simpa [cappedSum] using hbr
        · simp
      · have hL : limitLoop ((fp, errs) :: tl) t =
            ((fp, capErrors errs) :: (limitLoop tl (t + (capErrors errs).length)).1,
              (limitLoop tl (t + (capErrors errs).length)).2) := by
          simp [limitLoop, hbr]
        rw [hL]
        obtain ⟨ih1, ih2, ih3, ih4, ih5⟩ :=
          ih (t + (capErrors errs).length) (by omega)
        refine ⟨?_, ?_, ?_, ?_, ?_⟩
        · simp only [List.length_cons, List.take_succ_cons, List.map_cons]
          exact congrArg _ ih1
        · simp only [List.length_cons, List.take_succ_cons, cappedSum_cons]
          omega
        · intro i hi
          cases i with
          | zero => simpa [cappedSum] using ht
          | succ j =>
              have hj : j < (limitLoop tl (t + (capErrors errs).length)).1.length := by
                simpa using hi
              have h3 := ih3 j hj
              simp only [List.take_succ_cons, cappedSum_cons]
              omega
        · intro hlen
          have hlen2 : (limitLoop tl (t + (capErrors errs).length)).1.length < tl.length := by
            simpa using hlen
          have h4 := ih4 hlen2
          simp only [List.length_cons, List.take_succ_cons, cappedSum_cons]
          omega
        · simpa using ih5

theorem cappedSum_take_le (l : ErrorsByFilePath) (k : Nat) :
    cappedSum (l.take k) ≤ cappedSum l := by
  conv_rhs => rw [← List.take_append_drop k l]
  unfold cappedSum
  rw [List.map_append, List.sum_append]
  exact Nat.le_add_right _ _

theorem cappedSum_le_totalSum (l : ErrorsByFilePath) :
    cappedSum l ≤ (l.map (fun pl => pl.2.length)).sum := by
  unfold cappedSum
  exact List.sum_le_sum (fun pl _ => capErrors_length_le_self pl.2)

/-!
Lemmas describing setErrorsByFilePaths.
-/

theorem mem_foldl_addKey (errors : List CodeError) (ks : List String) (k : String) :
    k ∈ errors.foldl (fun ks e => addKey ks e.filePath) ks ↔
      k ∈ ks ∨ ∃ e ∈ errors, e.filePath = k := by
  induction errors generalizing ks with
  | nil => simp
  | cons e tl ih =>
      rw [List.foldl_cons, ih]
      have hadd : k ∈ addKey ks e.filePath ↔ k ∈ ks ∨ e.filePath = k := by
        unfold addKey
        by_cases hm : e.filePath ∈ ks
        · simp only [if_pos hm]
          constructor
          · exact Or.inl
          · rintro (hk | hk)
            · exact hk
            · exact hk ▸ hm
        · simp [if_neg hm, or_comm, eq_comm]
      rw [hadd]
      simp only [List.mem_cons]
      constructor
      · rintro ((hk | hk) | ⟨e2, he2, hk⟩)
        · exact Or.inl hk
        · exact Or.inr ⟨e, Or.inl rfl, hk⟩
        · exact Or.inr ⟨e2, Or.inr he2, hk⟩
      · rintro (hk | ⟨e2, (he2 | he2), hk⟩)
        · exact Or.inl (Or.inl hk)
        · exact Or.inl (Or.inr (he2 ▸ hk))
        · exact Or.inr ⟨e2, he2, hk⟩

theorem mem_firstKeys (errors : List CodeError) (k : String) :
    k ∈ firstKeys errors ↔ ∃ e ∈ errors, e.filePath = k := by
  unfold firstKeys
  rw [mem_foldl_addKey]
  simp

theorem groupByFilePath_fst {errors : List CodeError} {pl : String × List CodeError}
    (h : pl ∈ groupByFilePath errors) : ∃ e ∈ errors, e.filePath = pl.1 := by
  unfold groupByFilePath at h
  rcases List.mem_map.mp h with ⟨fp, hfp, heq⟩
  rw [← heq]
  exact (mem_firstKeys errors fp).mp hfp

theorem foldl_phase1_noop (l : ErrorsByFilePath) (acc : ErrorsByFilePath × Bool)
    (h : ∀ pl ∈ l, lookupFP acc.1 pl.1 = some pl.2) :
    l.foldl phase1Step acc = acc := by
  induction l with
  | nil => rfl
  | cons hd tl ih =>
      have hstep : phase1Step acc hd = acc := by
        simp [phase1Step, h hd (List.mem_cons_self _ _)]
      rw [List.foldl_cons, hstep]
      exact ih (fun pl hpl => h pl (List.mem_cons_of_mem _ hpl))

theorem foldl_phase2_noop (g : ErrorsByFilePath) (fps : List String)
    (acc : ErrorsByFilePath × Bool)
    (h : ∀ fp ∈ fps, lookupFP g fp = none → errorsAt acc.1 fp = []) :
    fps.foldl (phase2Step g) acc = acc := by
  induction fps with
  | nil => rfl
  | cons q tl ih =>
      have hstep : phase2Step g acc q = acc := by
        unfold phase2Step
        rw [if_neg]
        rintro ⟨hg, hne⟩
        exact hne (h q (List.mem_cons_self _ _) hg)
      rw [List.foldl_cons, hstep]
      exact ih (fun fp hfp => h fp (List.mem_cons_of_mem _ hfp))

theorem lookupFP_foldl_phase1 (l : ErrorsByFilePath) (acc : ErrorsByFilePath × Bool)
    (p : String) (h : ∀ pl ∈ l, pl.1 ≠ p) :
    lookupFP (l.foldl phase1Step acc).1 p = lookupFP acc.1 p := by
  induction l generalizing acc with
  | nil => rfl
  | cons hd tl ih =>
      rw [List.foldl_cons, ih _ (fun pl hpl => h pl (List.mem_cons_of_mem _ hpl))]
      unfold phase1Step
      split
      · rfl
      · exact lookupFP_setEntry_ne _ _ _ _ (Ne.symm (h hd (List.mem_cons_self _ _)))

theorem lookupFP_foldl_phase2 (g : ErrorsByFilePath) (fps : List String)
    (acc : ErrorsByFilePath × Bool) (p : String) (h : errorsAt acc.1 p = []) :
    lookupFP (fps.foldl (phase2Step g) acc).1 p = lookupFP acc.1 p := by
  induction fps generalizing acc with
  | nil => rfl
  | cons q tl ih =>
      by_cases hq : q = p
      · subst hq
        have hstep : phase2Step g acc q = acc := by
          unfold phase2Step
          rw [if_neg]
          rintro ⟨_, hne⟩
          exact hne h
        rw [List.foldl_cons, hstep]
        exact ih acc h
      · have h2 : lookupFP (phase2Step g acc q).1 p = lookupFP acc.1 p := by
          unfold phase2Step
          split
          · exact lookupFP_setEntry_ne _ _ _ _ (fun he => hq he.symm)
          · rfl
        have h3 : errorsAt (phase2Step g acc q).1 p = [] := by
          unfold errorsAt
          rw [h2]
          exact h
        rw [List.foldl_cons, ih _ h3, h2]

theorem foldl_phase2_filter (g : ErrorsByFilePath) (fps : List String)
    (acc : ErrorsByFilePath × Bool) (p : String) (h : errorsAt acc.1 p = []) :
    fps.foldl (phase2Step g) acc =
      (fps.filter (fun q => decide (q ≠ p))).foldl (phase2Step g) acc := by
  induction fps generalizing acc with
  | nil => rfl
  | cons q tl ih =>
      by_cases hq : q = p
      · have hstep : phase2Step g acc q = acc := by
          unfold phase2Step
          rw [if_neg]
          rintro ⟨_, hne⟩
          exact hne (by rw [hq]; exact h)
        have hfil : (q :: tl).filter (fun r => decide (r ≠ p)) =
            tl.filter (fun r => decide (r ≠ p)) := by
          simp [hq]
        rw [List.foldl_cons, hstep, hfil]
        exact ih acc h
      · have h3 : errorsAt (phase2Step g acc q).1 p = [] := by
          unfold errorsAt
          have h2 : lookupFP (phase2Step g acc q).1 p = lookupFP acc.1 p := by
            unfold phase2Step
            split
            · exact lookupFP_setEntry_ne _ _ _ _ (fun he => hq he.symm)
            · rfl
          rw [h2]
          exact h
        have hfil : (q :: tl).filter (fun r => decide (r ≠ p)) =
            q :: tl.filter (fun r => decide (r ≠ p)) := by
          simp [hq]
        rw [List.foldl_cons, hfil, List.foldl_cons]
        exact ih _ h3

/-!
Lemma for the tolerated no-op removal of applyDelta.
-/

theorem errorsAt_applyRemoved_noop (rm : ErrorsByFilePath) (s : ErrorsByFilePath)
    (h : ∀ pl ∈ rm, ∀ e ∈ pl.2, errorKey e ∉ keysAt s pl.1) (q : String) :
    errorsAt (applyRemoved s rm) q = errorsAt s q := by
  induction rm generalizing s with
  | nil => rfl
  | cons hd tl ih =>
      obtain ⟨fp, errs⟩ := hd
      have hfilter :
          (errorsAt s fp).filter (fun e => decide (errorKey e ∉ List.map errorKey errs)) =
            errorsAt s fp := by
        apply List.filter_eq_self.mpr
        intro e he
        rw [decide_eq_true_eq]
        intro hc
        rcases List.mem_map.mp hc with ⟨re, hre, hkey⟩
        exact h (fp, errs) (List.mem_cons_self _ _) re hre
          (by rw [hkey]; exact List.mem_map.mpr ⟨e, he, rfl⟩)
      have hsame : ∀ r, errorsAt (applyRemovedStep s (fp, errs)) r = errorsAt s r := by
        intro r
        by_cases hr : r = fp
        · subst hr
          rw [errorsAt_applyRemovedStep_self, hfilter]
        · exact errorsAt_applyRemovedStep_ne _ _ _ _ hr
      have h' : ∀ pl ∈ tl, ∀ e ∈ pl.2, errorKey e ∉ keysAt (applyRemovedStep s (fp, errs)) pl.1 := by
        intro pl hpl e he
        unfold keysAt
        rw [hsame]
        exact h pl (List.mem_cons_of_mem _ hpl) e he
      have hstep :
          applyRemoved s ((fp, errs) :: tl) = applyRemoved (applyRemovedStep s (fp, errs)) tl :=
        rfl
      rw [hstep, ih _ h', hsame]

/-!
Concrete fixtures used by the witnesses and the example scenario.
-/

def wErr1 : CodeError :=
  { filePath := "a.ts", fromPos := ⟨1, 2⟩, toPos := ⟨1, 5⟩, message := "msg1", payload := "p1" }

def wErr2 : CodeError :=
  { filePath := "b.ts", fromPos := ⟨3, 4⟩, toPos := ⟨3, 9⟩, message := "msg2", payload := "p2" }

def wErr3 : CodeError :=
  { filePath := "a.ts", fromPos := ⟨1, 2⟩, toPos := ⟨2, 7⟩, message := "msg1-changed",
    payload := "p3" }

def wErr4 : CodeError :=
  { filePath := "a.ts", fromPos := ⟨1, 2⟩, toPos := ⟨9, 9⟩, message := "msg1", payload := "px" }

def wBig : List CodeError := List.replicate 60 wErr1

def wStore : ErrorsByFilePath :=
  [("f1", wBig), ("f2", wBig), ("f3", wBig), ("f4", wBig), ("f5", wBig), ("f6", [wErr2])]

/-!
Claim theorems.
-/

/-- Claim C1: for any two stores A and B with the JS object key invariant,
applying diff(A, B) to A via applyDelta yields a store with exactly the
same set of pairs of file path and identity key as B. -/
theorem applyDelta_diff_roundTrip (A B : ErrorsByFilePath)
    (hA : keysNodup A) (hB : keysNodup B) (pr : String × String) :
    pr ∈ keyPairs (applyDelta A (diffDelta A B)) ↔ pr ∈ keyPairs B := by
  obtain ⟨fp, k⟩ := pr
  have hX : keysNodup (applyDelta A (diffDelta A B)) := by
    unfold applyDelta
    exact keysNodup_applyRemoved _ _ (keysNodup_applyAdded _ _ hA)
  rw [mem_keyPairs hX, mem_keyPairs hB]
  exact mem_keysAt_applyDelta_diffDelta hA hB fp k

theorem applyDelta_diff_roundTrip_witness :
    (("b.ts", errorKey wErr2) ∈
        keyPairs (applyDelta [("a.ts", [wErr1])]
          (diffDelta [("a.ts", [wErr1])] [("a.ts", [wErr3]), ("b.ts", [wErr2])]))
      ↔ ("b.ts", errorKey wErr2) ∈ keyPairs [("a.ts", [wErr3]), ("b.ts", [wErr2])]) :=
  applyDelta_diff_roundTrip [("a.ts", [wErr1])] [("a.ts", [wErr3]), ("b.ts", [wErr2])]
    (by decide) (by decide) ("b.ts", errorKey wErr2)

/-- Claim C2 counterexample: the path p carries the same (empty) identity
key set in the old store (where it is absent) and in the new store (where
it is present with an empty list), yet the computed delta lists p in added,
mapped to an empty list. -/
theorem unchangedPath_in_delta_cex :
    keysAt ([] : ErrorsByFilePath) "p" = keysAt [("p", ([] : List CodeError))] "p"
      ∧ lookupFP (diffDelta [] [("p", [])]).added "p" = some [] := by
  constructor
  · rfl
  · decide

/-- Helper: the only way an entry of the added half can carry an empty
error list is the wholesale branch applied to an empty new list. -/
theorem addedEntry_map_snd_eq_nil {oldS : ErrorsByFilePath} {q : String}
    {nl : List CodeError}
    (h : Option.map Prod.snd (addedEntry oldS (q, nl)) = some []) :
    lookupFP oldS q = none ∧ nl = [] := by
  cases ho : lookupFP oldS q with
  | none =>
      have he : addedEntry oldS (q, nl) = some (q, nl) := by
        unfold addedEntry
        dsimp only
        rw [ho]
      rw [he] at h
      simp at h
      exact ⟨rfl, h⟩
  | some ol =>
      have he : addedEntry oldS (q, nl) =
          if addedGroup ol nl = [] then none else some (q, addedGroup ol nl) := by
        unfold addedEntry
        dsimp only
        rw [ho]
      rw [he] at h
      by_cases hg : addedGroup ol nl = []
      · rw [if_pos hg] at h
        exact absurd h (by simp)
      · rw [if_neg hg] at h
        simp at h
        exact absurd h hg

/-- Claim C2 as amended: for stores with the key invariant, a file path
that is present in both snapshots or in neither and whose identity key set
is unchanged appears as a key in neither added nor removed; moreover a key
of added or removed maps to an empty list only in the wholesale branch,
that is, only when the path is present in exactly one snapshot and carries
an empty list there. -/
theorem unchangedPath_not_in_delta (oldS newS : ErrorsByFilePath)
    (hOld : keysNodup oldS) (hNew : keysNodup newS) (p : String)
    (hpresent : (lookupFP oldS p).isSome = (lookupFP newS p).isSome)
    (hsame : ∀ k, k ∈ keysAt oldS p ↔ k ∈ keysAt newS p) :
    (lookupFP (diffDelta oldS newS).added p = none
      ∧ lookupFP (diffDelta oldS newS).removed p = none)
    ∧ (∀ q, lookupFP (diffDelta oldS newS).added q = some [] →
        lookupFP oldS q = none ∧ lookupFP newS q = some [])
    ∧ (∀ q, lookupFP (diffDelta oldS newS).removed q = some [] →
        lookupFP newS q = none ∧ lookupFP oldS q = some []) := by
  simp only [diffDelta]
  refine ⟨⟨?_, ?_⟩, ?_, ?_⟩
  · rw [lookupFP_computeAdded hNew]
    cases hn : lookupFP newS p with
    | none => rfl
    | some nl =>
        have ho : (lookupFP oldS p).isSome = true := by rw [hpresent, hn]; rfl
        rcases Option.isSome_iff_exists.mp ho with ⟨ol, hol⟩
        have hgrp : addedGroup ol nl = [] := by
          apply List.filter_eq_nil_iff.mpr
          intro ne hne
          simp only [decide_eq_true_eq, not_not]
          have : errorKey ne ∈ keysAt newS p := by
            unfold keysAt errorsAt
            rw [hn]
            exact List.mem_map.mpr ⟨ne, hne, rfl⟩
          have h2 := (hsame (errorKey ne)).mpr this
          unfold keysAt errorsAt at h2
          rw [hol] at h2
          exact h2
        simp [addedEntry, hol, hgrp]
  · rw [lookupFP_computeAdded hOld]
    cases ho : lookupFP oldS p with
    | none => rfl
    | some ol =>
        have hn : (lookupFP newS p).isSome = true := by rw [← hpresent, ho]; rfl
        rcases Option.isSome_iff_exists.mp hn with ⟨nl, hnl⟩
        have hgrp : addedGroup nl ol = [] := by
          apply List.filter_eq_nil_iff.mpr
          intro oe hoe
          simp only [decide_eq_true_eq, not_not]
          have : errorKey oe ∈ keysAt oldS p := by
            unfold keysAt errorsAt
            rw [ho]
            exact List.mem_map.mpr ⟨oe, hoe, rfl⟩
          have h2 := (hsame (errorKey oe)).mp this
          unfold keysAt errorsAt at h2
          rw [hnl] at h2
          exact h2
        simp [addedEntry, hnl, hgrp]
  · intro q hq
    rw [lookupFP_computeAdded hNew] at hq
    cases hn : lookupFP newS q with
    | none => rw [hn] at hq; exact absurd hq (by simp)
    | some nl =>
        rw [hn] at hq
        simp only [Option.some_bind] at hq
        obtain ⟨ho, hnl⟩ := addedEntry_map_snd_eq_nil hq
        subst hnl
        exact ⟨ho, rfl⟩
  · intro q hq
    rw [lookupFP_computeAdded hOld] at hq
    cases ho : lookupFP oldS q with
    | none => rw [ho] at hq; exact absurd hq (by simp)
    | some ol =>
        rw [ho] at hq
        simp only [Option.some_bind] at hq
        obtain ⟨hn, hol⟩ := addedEntry_map_snd_eq_nil hq
        subst hol
        exact ⟨hn, rfl⟩

theorem unchangedPath_not_in_delta_witness :
    lookupFP (diffDelta [("a.ts", [wErr1])] [("a.ts", [wErr1])]).added "a.ts" = none
      ∧ lookupFP (diffDelta [("a.ts", [wErr1])] [("a.ts", [wErr1])]).removed "a.ts" = none :=
  (unchangedPath_not_in_delta [("a.ts", [wErr1])] [("a.ts", [wErr1])]
    (by decide) (by decide) "a.ts" rfl (fun _ => Iff.rfl)).1

/-- Claim C3: per file path the added and removed halves of the delta are
characterized by the symmetric difference of the identity key sets: added
keys are exactly those in B but not in A, removed keys exactly those in A
but not in B, so the two are disjoint and unchanged keys appear in
neither. -/
theorem delta_partitions_symmDiff (A B : ErrorsByFilePath)
    (hA : keysNodup A) (hB : keysNodup B) (fp k : String) :
    (k ∈ ((lookupFP (diffDelta A B).added fp).getD []).map errorKey ↔
        k ∈ keysAt B fp ∧ k ∉ keysAt A fp)
    ∧ (k ∈ ((lookupFP (diffDelta A B).removed fp).getD []).map errorKey ↔
        k ∈ keysAt A fp ∧ k ∉ keysAt B fp)
    ∧ ¬(k ∈ ((lookupFP (diffDelta A B).added fp).getD []).map errorKey
        ∧ k ∈ ((lookupFP (diffDelta A B).removed fp).getD []).map errorKey) := by
  simp only [diffDelta]
  refine ⟨mem_addedKeysAt hB fp k, mem_addedKeysAt hA fp k, ?_⟩
  rw [mem_addedKeysAt hB fp k, mem_addedKeysAt hA fp k]
  tauto

theorem delta_partitions_symmDiff_witness :
    (errorKey wErr3 ∈
        ((lookupFP (diffDelta [("a.ts", [wErr1])] [("a.ts", [wErr3])]).added "a.ts").getD
          []).map errorKey ↔
      errorKey wErr3 ∈ keysAt [("a.ts", [wErr3])] "a.ts"
        ∧ errorKey wErr3 ∉ keysAt [("a.ts", [wErr1])] "a.ts") :=
  (delta_partitions_symmDiff [("a.ts", [wErr1])] [("a.ts", [wErr3])]
    (by decide) (by decide) "a.ts" (errorKey wErr3)).1

/-- Claim C4: the scenario from the spec. From store and baseline both
holding wErr1 for a.ts and wErr2 for b.ts, calling setErrorsByFilePaths
for both paths with a batch containing only wErr3 (an a.ts diagnostic with
a changed message) replaces the a.ts list by the batch list, clears b.ts
to the empty list, reports a mutation, and the delta of baseline against
the new store is added a.ts wErr3, removed a.ts wErr1 and b.ts wErr2. -/
theorem scenario_partial_batch :
    setErrorsByFilePaths [("a.ts", [wErr1]), ("b.ts", [wErr2])] ["a.ts", "b.ts"] [wErr3]
        = ([("a.ts", [wErr3]), ("b.ts", [])], true)
      ∧ diffDelta [("a.ts", [wErr1]), ("b.ts", [wErr2])] [("a.ts", [wErr3]), ("b.ts", [])]
        = { added := [("a.ts", [wErr3])],
            removed := [("a.ts", [wErr1]), ("b.ts", [wErr2])] } := by
  constructor
  · decide
  · decide

/-- Claim C5: the identity key is built from from.line, from.ch and the
message only, so two diagnostics agreeing on those three fields have equal
keys no matter how their to positions or payloads differ, and the delta
computation lists neither of them as added or removed when they sit in the
two snapshots at the same path. -/
theorem errorKey_ignores_to_and_payload (d1 d2 : CodeError)
    (hline : d1.fromPos.line = d2.fromPos.line) (hch : d1.fromPos.ch = d2.fromPos.ch)
    (hmsg : d1.message = d2.message) :
    errorKey d1 = errorKey d2
    ∧ (∀ A B : ErrorsByFilePath, keysNodup A → keysNodup B → ∀ fp,
        d1 ∈ errorsAt A fp → d2 ∈ errorsAt B fp →
          errorKey d2 ∉ ((lookupFP (diffDelta A B).added fp).getD []).map errorKey
          ∧ errorKey d1 ∉ ((lookupFP (diffDelta A B).removed fp).getD []).map errorKey) := by
  have hkey : errorKey d1 = errorKey d2 := by
    unfold errorKey
    rw [hline, hch, hmsg]
  refine ⟨hkey, ?_⟩
  intro A B hA hB fp h1 h2
  constructor
  · intro hc
    simp only [diffDelta] at hc
    have hch2 := (mem_addedKeysAt hB fp (errorKey d2)).mp hc
    apply hch2.2
    rw [← hkey]
    exact List.mem_map.mpr ⟨d1, h1, rfl⟩
  · intro hc
    simp only [diffDelta] at hc
    have hch2 := (mem_addedKeysAt hA fp (errorKey d1)).mp hc
    apply hch2.2
    rw [hkey]
    exact List.mem_map.mpr ⟨d2, h2, rfl⟩

theorem errorKey_ignores_to_and_payload_witness :
    errorKey wErr1 = errorKey wErr4
      ∧ errorKey wErr4 ∉
          ((lookupFP (diffDelta [("a.ts", [wErr1])] [("a.ts", [wErr4])]).added
            "a.ts").getD []).map errorKey := by
  have h := errorKey_ignores_to_and_payload wErr1 wErr4 rfl rfl rfl
  exact ⟨h.1,
    (h.2 [("a.ts", [wErr1])] [("a.ts", [wErr4])] (by decide) (by decide) "a.ts"
      (by decide) (by decide)).1⟩

/-- Claim C6: the limited snapshot caps every included file at 50
diagnostics, its entries are the capped image of a prefix of the store in
insertion order, every file of that prefix was included while the running
capped total of the files before it was at or below 200, and the prefix is
proper only when the running total of the included files went over 200. -/
theorem getErrorsLimited_shape (s : ErrorsByFilePath) :
    (∀ pl ∈ (getErrorsLimited s).errorsByFilePath, pl.2.length ≤ 50)
    ∧ (getErrorsLimited s).errorsByFilePath =
        (s.take (getErrorsLimited s).errorsByFilePath.length).map
          (fun pl => (pl.1, capErrors pl.2))
    ∧ (∀ i, i < (getErrorsLimited s).errorsByFilePath.length →
        cappedSum (s.take i) ≤ 200)
    ∧ ((getErrorsLimited s).errorsByFilePath.length < s.length →
        cappedSum (s.take (getErrorsLimited s).errorsByFilePath.length) > 200) := by
  have h := limitLoop_spec s 0 (by omega)
  have hfix : (getErrorsLimited s).errorsByFilePath = (limitLoop s 0).1 := rfl
  refine ⟨?_, ?_, ?_, ?_⟩
  · intro pl hpl
    rw [hfix, h.1] at hpl
    rcases List.mem_map.mp hpl with ⟨q, hq, heq⟩
    rw [← heq]
    exact capErrors_length_le_50 q.2
  · rw [hfix]
    exact h.1
  · intro i hi
    rw [hfix] at hi
    have h3 := h.2.2.1 i hi
    omega
  · intro hl
    rw [hfix] at hl ⊢
    have h4 := h.2.2.2.1 hl
    omega

theorem getErrorsLimited_shape_witness :
    cappedSum (wStore.take (getErrorsLimited wStore).errorsByFilePath.length) > 200 :=
  (getErrorsLimited_shape wStore).2.2.2 (by decide)

/-- Claim C7: totalCount is the untruncated sum of the list lengths over
the whole store, syncCount never exceeds it, and tooMany holds exactly
when the two counts differ. -/
theorem getErrorsLimited_counts (s : ErrorsByFilePath) :
    (getErrorsLimited s).totalCount = (s.map (fun pl => pl.2.length)).sum
    ∧ (getErrorsLimited s).syncCount ≤ (getErrorsLimited s).totalCount
    ∧ ((getErrorsLimited s).tooMany = true ↔
        (getErrorsLimited s).syncCount ≠ (getErrorsLimited s).totalCount) := by
  have h := limitLoop_spec s 0 (by omega)
  refine ⟨rfl, ?_, ?_⟩
  · show (limitLoop s 0).2 ≤ (s.map (fun pl => pl.2.length)).sum
    rw [h.2.1]
    have h1 : cappedSum (s.take (limitLoop s 0).1.length) ≤ cappedSum s :=
      cappedSum_take_le s _
    have h2 : cappedSum s ≤ (s.map (fun pl => pl.2.length)).sum :=
      cappedSum_le_totalSum s
    omega
  · constructor
    · intro ht
      exact of_decide_eq_true ht
    · intro hne
      exact decide_eq_true hne

theorem getErrorsLimited_counts_witness :
    (getErrorsLimited wStore).syncCount ≤ (getErrorsLimited wStore).totalCount :=
  (getErrorsLimited_counts wStore).2.1

/-- Claim C8: a batch whose groups are structurally equal to the stored
lists for every grouped path, together with a filePaths argument listing
no path that is missing from the batch while currently storing a nonempty
list, leaves the store untouched, reports no mutation, and therefore
triggers no snapshot or delta emission (sendErrors runs only on a true
somethingNew flag). -/
theorem setErrors_noop (s : ErrorsByFilePath) (fps : List String) (errors : List CodeError)
    (h1 : ∀ pl ∈ groupByFilePath errors, lookupFP s pl.1 = some pl.2)
    (h2 : ∀ fp ∈ fps, lookupFP (groupByFilePath errors) fp = none → errorsAt s fp = []) :
    setErrorsByFilePaths s fps errors = (s, false) := by
  show fps.foldl (phase2Step (groupByFilePath errors))
      ((groupByFilePath errors).foldl phase1Step (s, false)) = (s, false)
  rw [foldl_phase1_noop _ _ h1]
  exact foldl_phase2_noop _ _ _ h2

theorem setErrors_noop_witness :
    setErrorsByFilePaths [("a.ts", [wErr1]), ("b.ts", [])] ["a.ts", "b.ts", "c.ts"] [wErr1]
      = ([("a.ts", [wErr1]), ("b.ts", [])], false) :=
  setErrors_noop [("a.ts", [wErr1]), ("b.ts", [])] ["a.ts", "b.ts", "c.ts"] [wErr1]
    (by decide) (by decide)

/-- Claim C9: applyDelta is total, and removals whose identity keys do not
occur in the target lists for their paths leave every per-path diagnostic
list unchanged, with no error raised. -/
theorem applyDelta_missing_removed_noop (s : ErrorsByFilePath) (rm : ErrorsByFilePath)
    (h : ∀ pl ∈ rm, ∀ e ∈ pl.2, errorKey e ∉ keysAt s pl.1) (q : String) :
    errorsAt (applyDelta s { added := [], removed := rm }) q = errorsAt s q := by
  show errorsAt (applyRemoved (applyAdded s []) rm) q = errorsAt s q
  exact errorsAt_applyRemoved_noop rm s h q

theorem applyDelta_missing_removed_noop_witness :
    errorsAt (applyDelta [("a.ts", [wErr1])]
        { added := [], removed := [("a.ts", [wErr2]), ("zz.ts", [wErr3])] }) "a.ts"
      = errorsAt [("a.ts", [wErr1])] "a.ts" :=
  applyDelta_missing_removed_noop [("a.ts", [wErr1])]
    [("a.ts", [wErr2]), ("zz.ts", [wErr3])] (by decide) "a.ts"

/-- Claim C10: a listed file path with no diagnostic in the batch that is
absent from the store stays absent (no empty entry is created for it), and
a listed path that is absent or already stores an empty list contributes
nothing: removing it from filePaths changes neither the resulting store
nor the somethingNew flag, hence such paths alone never cause an
emission. -/
theorem setErrors_absent_path_frame (s : ErrorsByFilePath) (fps : List String)
    (errors : List CodeError) (p : String) (_hp : p ∈ fps)
    (hno : ∀ e ∈ errors, e.filePath ≠ p) :
    (lookupFP s p = none → lookupFP (setErrorsByFilePaths s fps errors).1 p = none)
    ∧ (errorsAt s p = [] →
        setErrorsByFilePaths s fps errors =
          setErrorsByFilePaths s (fps.filter (fun q => decide (q ≠ p))) errors) := by
  have hgk : ∀ pl ∈ groupByFilePath errors, pl.1 ≠ p := by
    intro pl hpl he
    rcases groupByFilePath_fst hpl with ⟨e, hee, hef⟩
    exact hno e hee (by rw [hef, he])
  constructor
  · intro hnone
    show lookupFP (fps.foldl (phase2Step (groupByFilePath errors))
        ((groupByFilePath errors).foldl phase1Step (s, false))).1 p = none
    have e1 : lookupFP ((groupByFilePath errors).foldl phase1Step (s, false)).1 p =
        lookupFP s p := lookupFP_foldl_phase1 _ _ _ hgk
    have e2 : errorsAt ((groupByFilePath errors).foldl phase1Step (s, false)).1 p = [] := by
      unfold errorsAt
      rw [e1, hnone]
      rfl
    rw [lookupFP_foldl_phase2 _ _ _ _ e2, e1]
    exact hnone
  · intro hempty
    show fps.foldl (phase2Step (groupByFilePath errors))
        ((groupByFilePath errors).foldl phase1Step (s, false)) =
      (fps.filter (fun q => decide (q ≠ p))).foldl (phase2Step (groupByFilePath errors))
        ((groupByFilePath errors).foldl phase1Step (s, false))
    have e1 : lookupFP ((groupByFilePath errors).foldl phase1Step (s, false)).1 p =
        lookupFP s p := lookupFP_foldl_phase1 _ _ _ hgk
    have e2 : errorsAt ((groupByFilePath errors).foldl phase1Step (s, false)).1 p = [] := by
      unfold errorsAt at hempty ⊢
      rw [e1]
      exact hempty
    exact foldl_phase2_filter _ _ _ _ e2

theorem setErrors_absent_path_frame_witness :
    lookupFP (setErrorsByFilePaths [("b.ts", [wErr2])] ["a.ts", "b.ts"] [wErr2]).1 "a.ts"
      = none := by
  have h := setErrors_absent_path_frame [("b.ts", [wErr2])] ["a.ts", "b.ts"] [wErr2]
    "a.ts" (by decide) (by decide)
  exact h.1 (by decide)
